import Mathlib

/-!
Shallow embedding of the BrainBloom hybrid search and embedding-cache engine
(`src/lib/ai/enhanced-ai-engine.ts`, the worker-dispatch engine in the
store/worker modules, and the zustand store AI actions), together with
theorems settling the specification claims.

JavaScript `number` arithmetic on scores and weights is modelled by exact
rational arithmetic (`ℚ`); the square roots appearing in vector
normalisation and cosine similarity are modelled over `ℝ` with `Real.sqrt`.
JS `Map` objects are modelled as insertion-ordered association lists, and
the stable JS `Array.prototype.sort` is modelled by `List.insertionSort`
(stable) with the comparator's order.
-/

/-- Lifecycle states of the AI engine, from the app store's
`ai.status : 'loading' | 'ready' | 'error' | 'disabled'`. -/
inductive AIStatus
  | loading
  | ready
  | error
  | disabled
  deriving DecidableEq

/-- Provenance tag of a search result (`'semantic' | 'text' | 'hybrid'`). -/
inductive Source
  | semantic
  | text
  | hybrid
  deriving DecidableEq

/-- The fields of a note that the engine reads. -/
structure Note where
  id : String
  title : String
  content : String
  deriving DecidableEq

/-- `SearchResult` from `enhanced-ai-engine.ts`. -/
structure SearchResult where
  id : String
  title : String
  content : String
  score : ℚ
  source : Source
  deriving DecidableEq

/-- JS `String.prototype.includes`: contiguous substring test. -/
def includesStr (s sub : String) : Bool := decide (sub.data <:+: s.data)

/-- JS `String.prototype.toLowerCase` (character-wise lowering). -/
def jsToLower (s : String) : String := ⟨s.data.map Char.toLower⟩

/-- Splitting on a single-character separator, as JS
`String.prototype.split(sep)` does: empty pieces between consecutive
separators are kept, and the empty string yields `[""]`. -/
def splitOnCharAux (sep : Char) : List Char → List Char → List (List Char)
  | acc, [] => [acc.reverse]
  | acc, c :: cs =>
    if c = sep then acc.reverse :: splitOnCharAux sep [] cs
    else splitOnCharAux sep (c :: acc) cs

/-- JS `s.split(sep)` for a one-character separator string. -/
def jsSplit (s : String) (sep : Char) : List String :=
  (splitOnCharAux sep [] s.data).map List.asString

/-- Coercion of an integer to a 32-bit signed integer, as performed by the
JS bitwise operators (`<<` and `& `). -/
def toInt32 (n : ℤ) : ℤ := (n + 2 ^ 31) % 2 ^ 32 - 2 ^ 31

/-- `hashString` from `enhanced-ai-engine.ts`:
`hash = ((hash << 5) - hash) + charCode; hash = hash & hash; return Math.abs(hash)`. -/
def hashChars (l : List Char) : ℕ :=
  (l.foldl (fun h c => toInt32 (toInt32 (h * 32) - h + c.toNat)) 0).natAbs

/-- `hashString` applied to a Lean string. -/
def hashString (s : String) : ℕ := hashChars s.data

/-- The comparator `(a, b) => b.score - a.score` used by the engine's sorts:
descending order on scores. -/
def rdesc (a b : SearchResult) : Prop := b.score ≤ a.score

instance : DecidableRel rdesc := fun a b => inferInstanceAs (Decidable (b.score ≤ a.score))

instance : IsTotal SearchResult rdesc := ⟨fun a b => le_total b.score a.score⟩

instance : IsTrans SearchResult rdesc := ⟨fun _ _ _ h1 h2 => le_trans h2 h1⟩

/-- `FuzzySearch.search` from `enhanced-ai-engine.ts`: the lexical scorer.
Title substring of the whole query gives +100; then for each query word,
+50 per title word containing it and +10 per word among the first 100
space-split content words containing it.  Zero scores are dropped, results
are sorted descending by score and truncated to 10; the stored content is
the first 200 characters. -/
def fuzzySearch (query : String) (notes : List Note) : List SearchResult :=
  let queryLower := jsToLower query
  (((notes.map (fun note =>
      let titleLower := jsToLower note.title
      let contentLower := jsToLower note.content
      let base : ℚ := if includesStr titleLower queryLower then 100 else 0
      let titleWords := jsSplit titleLower ' '
      let contentWords := (jsSplit contentLower ' ').take 100
      let queryWords := jsSplit queryLower ' '
      let score := queryWords.foldl (fun s w =>
        contentWords.foldl (fun s2 cw => if includesStr cw w then s2 + 10 else s2)
          (titleWords.foldl (fun s2 tw => if includesStr tw w then s2 + 50 else s2) s)) base
      SearchResult.mk note.id note.title ((note.content.data.take 200).asString) score Source.text
    )).filter (fun r => 0 < r.score)).insertionSort rdesc).take 10

/-- Lookup in a JS `Map<string, SearchResult>` modelled as an association list. -/
def mapFind (m : List (String × SearchResult)) (k : String) : Option SearchResult :=
  (m.find? (fun p => p.1 == k)).map (·.2)

/-- `Map.set`: replace the value at an existing key in place, otherwise append. -/
def mapSet : List (String × SearchResult) → String → SearchResult → List (String × SearchResult)
  | [], k, v => [(k, v)]
  | p :: ps, k, v => if p.1 == k then (k, v) :: ps else p :: mapSet ps k v

/-- One iteration of the `textResults.forEach` loop in `mergeResults`:
add the weighted text score onto an existing entry, or insert a new
text-weighted entry keeping its provenance. -/
def mergeStep (tw : ℚ) (m : List (String × SearchResult)) (r : SearchResult) :
    List (String × SearchResult) :=
  match mapFind m r.id with
  | some existing => mapSet m r.id { existing with score := existing.score + r.score * tw }
  | none => mapSet m r.id { r with score := r.score * tw }

/-- The weight record passed to `mergeResults`. -/
structure MergeWeights where
  aiWeight : ℚ
  textWeight : ℚ

/-- The `merged` map built by `EnhancedAIEngine.mergeResults`: AI results are
inserted with `score * aiWeight` and provenance `hybrid`, then text results
are merged with `score * textWeight`. -/
def mergeMap (aiResults textResults : List SearchResult) (w : MergeWeights) :
    List (String × SearchResult) :=
  textResults.foldl (mergeStep w.textWeight)
    (aiResults.foldl
      (fun m r => mapSet m r.id { r with score := r.score * w.aiWeight, source := Source.hybrid })
      [])

/-- `EnhancedAIEngine.mergeResults`: values of the merged map, sorted
descending by score, truncated to 10. -/
def mergeResults (aiResults textResults : List SearchResult) (w : MergeWeights) :
    List SearchResult :=
  (((mergeMap aiResults textResults w).map (·.2)).insertionSort rdesc).take 10

/-- The weights `search` passes to `mergeResults`:
`aiWeight: aiResults.length > 0 ? 0.7 : 0, textWeight: 0.3`. -/
def searchWeights (aiResults : List SearchResult) : MergeWeights :=
  ⟨if 0 < aiResults.length then 7/10 else 0, 3/10⟩

/-- The fusion step of `EnhancedAIEngine.search` (lines 183–186). -/
def fuseBySearch (aiResults textResults : List SearchResult) : List SearchResult :=
  mergeResults aiResults textResults (searchWeights aiResults)

/-- `EnhancedAIEngine.search`.  `sem` is the settlement of the
`semanticSearch` promise (only consulted when the lifecycle is `ready`;
otherwise the code races `Promise.resolve([])` instead), `semCalls` is the
number of dispatch-channel calls that semantic search performs, and `crash`
models an unexpected failure inside the `try` block, whose `catch` returns
`this.fallbackSearch.search(query, notes)`.  The second component of the
result counts dispatch-channel calls made by the search. -/
def hybridSearch (status : AIStatus) (sem : Except Unit (List SearchResult)) (semCalls : ℕ)
    (crash : Bool) (query : String) (notes : List Note) : List SearchResult × ℕ :=
  let aiCalls := if status = AIStatus.ready then semCalls else 0
  if crash then (fuzzySearch query notes, aiCalls)
  else
    let aiResults :=
      if status = AIStatus.ready then
        match sem with
        | .ok l => l
        | .error _ => []
      else []
    let textResults := fuzzySearch query notes
    (fuseBySearch aiResults textResults, aiCalls)

/-- JS `\w` character class (no unicode flag): ASCII letters, digits, `_`. -/
def isWordChar (c : Char) : Bool := c.isAlphanum || c = '_'

/-- Maximal runs of characters satisfying `p`, separators dropped.  This is
JS `split(/\W+/)` followed by removal of the empty border pieces (which the
engine's length filter removes anyway). -/
def wordRunsAux (p : Char → Bool) : List Char → List Char → List (List Char)
  | acc, [] => if acc.isEmpty then [] else [acc.reverse]
  | acc, c :: cs =>
    if p c then wordRunsAux p (c :: acc) cs
    else if acc.isEmpty then wordRunsAux p [] cs
    else acc.reverse :: wordRunsAux p [] cs

/-- The word runs of a character list. -/
def wordRuns (l : List Char) : List (List Char) := wordRunsAux isWordChar [] l

/-- The qualifying tokens of `generateKeywordEmbedding`:
`text.toLowerCase().split(/\W+/).filter(w => w.length > 2)`. -/
def keywordTokens (text : String) : List (List Char) :=
  (wordRuns (jsToLower text).data).filter (fun w => 2 < w.length)

/-- `embedding[hash % 384] += 1` on a 384-length vector. -/
def incrAt (v : List ℕ) (i : ℕ) : List ℕ := v.set i (v.getD i 0 + 1)

/-- The un-normalised keyword vector: a 384-length zero vector with +1
accumulated at `hash(word) % 384` for each qualifying token. -/
def rawKeywordVector (text : String) : List ℕ :=
  (keywordTokens text).foldl (fun v w => incrAt v (hashChars w % 384)) (List.replicate 384 0)

/-- `EnhancedAIEngine.generateKeywordEmbedding`: the raw keyword vector,
L2-normalised when its magnitude is positive, otherwise all zeros. -/
noncomputable def generateKeywordEmbedding (text : String) : List ℝ :=
  let embedding := rawKeywordVector text
  let magnitude : ℝ := Real.sqrt ((embedding.map (fun (v : ℕ) => (v : ℝ) * v)).sum)
  embedding.map (fun (v : ℕ) => if 0 < magnitude then (v : ℝ) / magnitude else 0)

/-- Squared Euclidean norm of a real vector. -/
def l2normSq (l : List ℝ) : ℝ := (l.map (fun x => x * x)).sum

/-- Euclidean (L2) norm of a real vector. -/
noncomputable def l2norm (l : List ℝ) : ℝ := Real.sqrt (l2normSq l)

/-- Dot product over the aligned prefix of two vectors (JS loops index only
as far as both arrays reach). -/
def dotList (a b : List ℝ) : ℝ := (a.zip b).foldl (fun s p => s + p.1 * p.2) 0

/-- The magnitude accumulator used by the cosine routines. -/
def sqSum (a : List ℝ) : ℝ := a.foldl (fun s v => s + v * v) 0

/-- `EnhancedAIEngine.cosineSimilarity`: iterates over
`i < min(a.length, b.length)`, accumulating the dot product and both
magnitudes over that common prefix only; returns 0 when either (prefix)
magnitude is 0. -/
noncomputable def cosineSimilarity (a b : List ℝ) : ℝ :=
  let pairs := a.zip b
  let dotProduct := pairs.foldl (fun s p => s + p.1 * p.2) 0
  let magnitudeA := Real.sqrt (pairs.foldl (fun s p => s + p.1 * p.1) 0)
  let magnitudeB := Real.sqrt (pairs.foldl (fun s p => s + p.2 * p.2) 0)
  if magnitudeA = 0 ∨ magnitudeB = 0 then 0 else dotProduct / (magnitudeA * magnitudeB)

/-- `AIEngine.cosineSimilarity` from the worker-based engine: returns 0
outright on unequal lengths, otherwise dot product over full-vector norms. -/
noncomputable def cosineSimilarityW (a b : List ℝ) : ℝ :=
  if a.length ≠ b.length then 0
  else
    let dotProduct := (a.zip b).foldl (fun s p => s + p.1 * p.2) 0
    let magnitudeA := Real.sqrt (sqSum a)
    let magnitudeB := Real.sqrt (sqSum b)
    if magnitudeA = 0 ∨ magnitudeB = 0 then 0 else dotProduct / (magnitudeA * magnitudeB)

/-- An entry of the engine's embedding cache. -/
structure CacheEntry where
  data : List ℝ
  timestamp : ℤ
  hits : ℕ
  compressed : Bool

/-- The embedding cache: a JS `Map` modelled as an insertion-ordered
association list. -/
abbrev Cache := List (String × CacheEntry)

/-- The cache key `emb:${hashString(text)}`. -/
def embCacheKey (text : String) : String := "emb:" ++ toString (hashString text)

/-- `Map.get` on the cache. -/
def cacheFind (c : Cache) (k : String) : Option CacheEntry :=
  (c.find? (fun p => p.1 == k)).map (·.2)

/-- `Map.set` on the cache: update in place, else append. -/
def cacheSet : Cache → String → CacheEntry → Cache
  | [], k, v => [(k, v)]
  | p :: ps, k, v => if p.1 == k then (k, v) :: ps else p :: cacheSet ps k v

/-- `cached.hits++`: increment the hit counter of the entry at `k`. -/
def bumpHits : Cache → String → Cache
  | [], _ => []
  | p :: ps, k =>
    if p.1 == k then (p.1, { p.2 with hits := p.2.hits + 1 }) :: ps else p :: bumpHits ps k

/-- The eviction comparator `(a, b) => a[1].hits - b[1].hits`: ascending by
hit counter. -/
def hitsLE (a b : String × CacheEntry) : Prop := a.2.hits ≤ b.2.hits

instance : DecidableRel hitsLE := fun a b => inferInstanceAs (Decidable (a.2.hits ≤ b.2.hits))

instance : IsTotal (String × CacheEntry) hitsLE := ⟨fun a b => le_total a.2.hits b.2.hits⟩

instance : IsTrans (String × CacheEntry) hitsLE := ⟨fun _ _ _ h1 h2 => le_trans h1 h2⟩

/-- The 100 entries `cleanupCache` deletes: the first 100 of the entries
sorted ascending by hit counter. -/
def evictedEntries (c : Cache) : Cache := (c.insertionSort hitsLE).take 100

/-- `EnhancedAIEngine.cleanupCache`: sort entries ascending by hits and
delete the first 100 keys from the cache. -/
def cleanupCache (c : Cache) : Cache :=
  c.filter (fun p => !((evictedEntries c).map (·.1)).contains p.1)

/-- The store step of `generateEmbedding` (lines 297–307): `cache.set`
followed by `cleanupCache` when the size exceeds 500. -/
def storeWithEviction (c : Cache) (k : String) (e : CacheEntry) : Cache :=
  let c1 := cacheSet c k e
  if 500 < c1.length then cleanupCache c1 else c1

/-- The body of `generateEmbedding` after a cache miss: if the lifecycle is
not `ready`, fall back to the keyword embedding without touching the cache;
otherwise dispatch to the worker (`outcome` is its settlement) and on
success store the result (with eviction check); on dispatch failure fall
back to the keyword embedding, leaving the cache unchanged.  `compress`
stands for the computed flag `JSON.stringify(result).length > 1000`. -/
noncomputable def generateEmbeddingMiss (status : AIStatus) (outcome : Except Unit (List ℝ))
    (compress : Bool) (now : ℤ) (c : Cache) (key : String) (text : String) : List ℝ × Cache :=
  if status = AIStatus.ready then
    match outcome with
    | .ok v => (v, storeWithEviction c key ⟨v, now, 1, compress⟩)
    | .error _ => (generateKeywordEmbedding text, c)
  else (generateKeywordEmbedding text, c)

/-- `EnhancedAIEngine.generateEmbedding`: cache lookup keyed by
`embCacheKey text`; a hit (entry younger than 24h) bumps the hit counter
and returns the cached vector; otherwise the miss path runs. -/
noncomputable def generateEmbedding (status : AIStatus) (outcome : Except Unit (List ℝ))
    (compress : Bool) (now : ℤ) (c : Cache) (text : String) : List ℝ × Cache :=
  let key := embCacheKey text
  match cacheFind c key with
  | some cached =>
    if now - cached.timestamp < 86400000 then (cached.data, bumpHits c key)
    else generateEmbeddingMiss status outcome compress now c key text
  | none => generateEmbeddingMiss status outcome compress now c key text

/-- `AIConfig` from `enhanced-ai-engine.ts`. -/
structure AIConfig where
  model : String
  batchSize : ℕ
  workerCount : ℕ
  deriving DecidableEq

/-- The AI slice of the zustand app store that `initialize` touches. -/
structure StoreAIState where
  status : AIStatus
  fallbackMode : Bool
  config : AIConfig
  deriving DecidableEq

/-- `setAIStatus` from the app store: also raises the fallback flag when
the status becomes `error`. -/
def setAIStatus (s : StoreAIState) (st : AIStatus) : StoreAIState :=
  { s with status := st, fallbackMode := if st = AIStatus.error then true else s.fallbackMode }

/-- `setAIFallbackMode` from the app store. -/
def setAIFallbackMode (s : StoreAIState) (b : Bool) : StoreAIState := { s with fallbackMode := b }

/-- `setAIConfig` from the app store (all fields are supplied, so the merge
is a full overwrite). -/
def setAIConfig (s : StoreAIState) (c : AIConfig) : StoreAIState := { s with config := c }

/-- Settlement of the model-load-and-self-test sequence inside
`initialize`'s `try` block. -/
inductive LoadOutcome
  | success
  | timeout
  | loadError
  | selfTestError
  deriving DecidableEq

/-- Result of `initialize`: the returned boolean, the new `isInitialized`
flag, and the new store state. -/
structure InitResult where
  ret : Bool
  isInitialized : Bool
  store : StoreAIState
  deriving DecidableEq

/-- `EnhancedAIEngine.initialize`: early-returns success when already
initialized; routes the `fallback` sentinel model to `disabled`; on load
success transitions to `ready`; on any failure transitions to `error`,
raises the fallback flag, and still returns success. -/
def initEngine (isInit : Bool) (config : AIConfig) (outcome : LoadOutcome)
    (s : StoreAIState) : InitResult :=
  if isInit then ⟨true, true, s⟩
  else
    let s1 := setAIConfig s config
    if config.model = "fallback" then ⟨true, true, setAIStatus s1 AIStatus.disabled⟩
    else
      match outcome with
      | .success => ⟨true, true, setAIStatus s1 AIStatus.ready⟩
      | _ => ⟨true, true, setAIFallbackMode (setAIStatus s1 AIStatus.error) true⟩

/-- A message arriving on the dispatch channel. -/
structure WorkerMsg where
  id : String
  error : Option String
  result : ℕ
  deriving DecidableEq

/-- How a pending request can settle. -/
inductive Settled
  | resolved (r : ℕ)
  | rejected (msg : String)
  deriving DecidableEq

/-- The state of one `sendToWorker` request: whether its message listener
is still attached, and how its promise has settled (if it has). -/
structure ReqState where
  listener : Bool
  outcome : Option Settled
  deriving DecidableEq

/-- A promise settles only once: later settlements are no-ops. -/
def settleOnce (o : Option Settled) (x : Settled) : Option Settled :=
  match o with
  | some y => some y
  | none => some x

/-- How a reply message settles the promise: reject when
`event.data.error` is truthy (a non-empty string), resolve with the result
otherwise. -/
def settledOf (m : WorkerMsg) : Settled :=
  match m.error with
  | some e => if e == "" then Settled.resolved m.result else Settled.rejected e
  | none => Settled.resolved m.result

/-- The reply handler of `AIEngine.sendToWorker`: while the listener is
attached, a message whose correlation id matches removes the listener and
settles the promise — rejecting when `event.data.error` is truthy (a
non-empty string), resolving otherwise.  Everything else is ignored. -/
def handleMessage (reqId : String) (s : ReqState) (m : WorkerMsg) : ReqState :=
  if s.listener && (m.id == reqId) then
    { listener := false, outcome := settleOnce s.outcome (settledOf m) }
  else s

/-- The state right after `addEventListener`. -/
def initReqState : ReqState := ⟨true, none⟩

/-- The 30-second safety timer: removes the listener and rejects with the
timeout failure (a no-op on an already settled promise). -/
def fireTimeout (s : ReqState) : ReqState :=
  ⟨false, settleOnce s.outcome (Settled.rejected "AI Worker timeout")⟩

/-- One full `sendToWorker` request: the messages in `early` arrive before
the 30-second timer fires, those in `late` after. -/
def runRequest (reqId : String) (early late : List WorkerMsg) : ReqState :=
  late.foldl (handleMessage reqId) (fireTimeout (early.foldl (handleMessage reqId) initReqState))

/-- The settlement the dispatch protocol promises: determined by the first
matching reply before the timeout, and by the timeout otherwise. -/
def honoredReply (reqId : String) (early : List WorkerMsg) : Settled :=
  match early.find? (fun m => m.id == reqId) with
  | some m => settledOf m
  | none => Settled.rejected "AI Worker timeout"

/-- The lexical score in the counting formulation, with content tokens
split on the space character — the tokenization the code actually uses
(`content.split(' ')`): +100 for the whole query appearing in the title,
plus per query token 50 times the number of title tokens containing it and
10 times the number of matching tokens among the first 100 space-split
content tokens. -/
def lexicalScoreSpecSpace (query : String) (note : Note) : ℚ :=
  let q := jsToLower query
  let t := jsToLower note.title
  let c := jsToLower note.content
  (if includesStr t q then 100 else 0)
    + ((jsSplit q ' ').map (fun w =>
        50 * (((jsSplit t ' ').countP (fun tw => includesStr tw w) : ℕ) : ℚ)
          + 10 * ((((jsSplit c ' ').take 100).countP (fun cw => includesStr cw w) : ℕ) : ℚ))).sum

/-- The lexical scorer in the counting formulation with space-split content
tokens: score each note, drop zero scores, sort descending, truncate to 10,
excerpt of 200 characters, provenance `text`. -/
def lexicalSpecSpace (query : String) (notes : List Note) : List SearchResult :=
  (((notes.map (fun n =>
      SearchResult.mk n.id n.title ((n.content.data.take 200).asString)
        (lexicalScoreSpecSpace query n) Source.text)).filter
    (fun r => 0 < r.score)).insertionSort rdesc).take 10

/-- Whitespace-split tokens of a string: maximal runs of non-whitespace
characters. -/
def jsWhitespaceTokens (s : String) : List String :=
  (wordRunsAux (fun c => !c.isWhitespace) [] s.data).map List.asString

/-- The lexical score as the specification claim words it, with the content
tokenized into **whitespace-split** tokens (not only space-split ones).
This is the spec-faithful reading that the code does not implement. -/
def lexicalScoreSpecW (query : String) (note : Note) : ℚ :=
  let q := jsToLower query
  let t := jsToLower note.title
  let c := jsToLower note.content
  (if includesStr t q then 100 else 0)
    + ((jsSplit q ' ').map (fun w =>
        50 * (((jsSplit t ' ').countP (fun tw => includesStr tw w) : ℕ) : ℚ)
          + 10 * (((jsWhitespaceTokens c).take 100).countP
              (fun cw => includesStr cw w) : ℕ))).sum

/-- The lexical scorer as the specification claim words it
(whitespace-split content tokens), with the same surrounding pipeline. -/
def lexicalSpecW (query : String) (notes : List Note) : List SearchResult :=
  (((notes.map (fun n =>
      SearchResult.mk n.id n.title ((n.content.data.take 200).asString)
        (lexicalScoreSpecW query n) Source.text)).filter
    (fun r => 0 < r.score)).insertionSort rdesc).take 10

/-! ### Lemmas about the lexical scorer (C6) -/

theorem foldl_if_count {α : Type} (p : α → Bool) (k : ℚ) :
    ∀ (l : List α) (s : ℚ),
      l.foldl (fun acc x => if p x then acc + k else acc) s = s + k * ((l.countP p : ℕ) : ℚ)
  | [], s => by simp
  | x :: l, s => by
    by_cases h : p x
    · simp only [List.foldl_cons, h, if_true, List.countP_cons, foldl_if_count p k l]
      push_cast [h]
      ring
    · simp only [List.foldl_cons, h, if_false, List.countP_cons, foldl_if_count p k l]
      push_cast [h]
      ring

theorem foldl_add_sum {α : Type} (g : α → ℚ) :
    ∀ (l : List α) (s : ℚ), l.foldl (fun acc x => acc + g x) s = s + (l.map g).sum
  | [], s => by simp
  | x :: l, s => by
    simp only [List.foldl_cons, List.map_cons, List.sum_cons, foldl_add_sum g l]
    ring

theorem fuzzy_score_foldl (titleWords contentWords queryWords : List String) (s : ℚ) :
    queryWords.foldl (fun s w =>
        contentWords.foldl (fun s2 cw => if includesStr cw w then s2 + 10 else s2)
          (titleWords.foldl (fun s2 tw => if includesStr tw w then s2 + 50 else s2) s)) s
      = s + (queryWords.map (fun w =>
          50 * ((titleWords.countP (fun tw => includesStr tw w) : ℕ) : ℚ)
            + 10 * ((contentWords.countP (fun cw => includesStr cw w) : ℕ) : ℚ))).sum := by
  have hstep : (fun (s : ℚ) (w : String) =>
      contentWords.foldl (fun s2 cw => if includesStr cw w then s2 + 10 else s2)
        (titleWords.foldl (fun s2 tw => if includesStr tw w then s2 + 50 else s2) s))
      = fun (s : ℚ) (w : String) => s +
          (50 * ((titleWords.countP (fun tw => includesStr tw w) : ℕ) : ℚ)
            + 10 * ((contentWords.countP (fun cw => includesStr cw w) : ℕ) : ℚ)) := by
    funext s w
    rw [foldl_if_count, foldl_if_count]
    ring
  rw [hstep, foldl_add_sum]

/-- C6 (amended): For every query and note collection, the lexical scorer
gives each note +100 when the lowercased title contains the whole
lowercased query, plus per query token +50 per title token containing it
and +10 per matching token among the first 100 content tokens split on the
space character (not on general whitespace); zero-score notes are dropped,
the rest are sorted descending by score and truncated to 10, with a
200-character excerpt and provenance `text`. -/
theorem fuzzySearch_meets_lexical_spec (q : String) (notes : List Note) :
    fuzzySearch q notes = lexicalSpecSpace q notes
      ∧ (fuzzySearch q notes).length ≤ 10
      ∧ List.Sorted rdesc (fuzzySearch q notes) := by
  have heq : fuzzySearch q notes = lexicalSpecSpace q notes := by
    unfold fuzzySearch lexicalSpecSpace
    have hmap : notes.map (fun note =>
        SearchResult.mk note.id note.title ((note.content.data.take 200).asString)
          ((jsSplit (jsToLower q) ' ').foldl (fun s w =>
            ((jsSplit (jsToLower note.content) ' ').take 100).foldl
                (fun s2 cw => if includesStr cw w then s2 + 10 else s2)
              ((jsSplit (jsToLower note.title) ' ').foldl
                (fun s2 tw => if includesStr tw w then s2 + 50 else s2) s))
            (if includesStr (jsToLower note.title) (jsToLower q) then 100 else 0))
          Source.text)
        = notes.map (fun n =>
            SearchResult.mk n.id n.title ((n.content.data.take 200).asString)
              (lexicalScoreSpecSpace q n) Source.text) := by
      apply List.map_congr_left
      intro n _
      have := fuzzy_score_foldl (jsSplit (jsToLower n.title) ' ')
        ((jsSplit (jsToLower n.content) ' ').take 100) (jsSplit (jsToLower q) ' ')
        (if includesStr (jsToLower n.title) (jsToLower q) then 100 else 0)
      simp only [lexicalScoreSpecSpace]
      rw [this]
    simp only [hmap]
  refine ⟨heq, ?_, ?_⟩
  · unfold fuzzySearch
    exact List.length_take_le 10 _
  · unfold fuzzySearch
    exact List.Pairwise.sublist (List.take_sublist 10 _) (List.sorted_insertionSort rdesc _)

/-! ### Association-list lemmas for the merged result map (C1, C2) -/

theorem mapFind_mapSet_self : ∀ (m : List (String × SearchResult)) (k : String) (v : SearchResult),
    mapFind (mapSet m k v) k = some v
  | [], k, v => by simp [mapFind, mapSet]
  | p :: ps, k, v => by
    by_cases h : p.1 == k
    · simp [mapSet, h, mapFind, List.find?]
    · simp only [mapSet, h, if_false, Bool.false_eq_true]
      simp only [mapFind, List.find?] at mapFind_mapSet_self ⊢
      simp [h, mapFind_mapSet_self ps k v]

theorem mapFind_mapSet_ne : ∀ (m : List (String × SearchResult)) (k k2 : String)
    (v : SearchResult), k2 ≠ k → mapFind (mapSet m k v) k2 = mapFind m k2
  | [], k, k2, v, h => by
    simp [mapFind, mapSet, List.find?, show (k == k2) = false by simpa using fun e => h e.symm]
  | p :: ps, k, k2, v, h => by
    by_cases hp : p.1 == k
    · have hk : (k == k2) = false := by simpa using fun e => h e.symm
      have hp2 : (p.1 == k2) = false := by
        have : p.1 = k := by simpa using hp
        simpa [this] using fun e => h e.symm
      simp [mapSet, hp, mapFind, List.find?, hk, hp2]
    · simp only [mapSet, hp, if_false, Bool.false_eq_true]
      simp only [mapFind, List.find?] at mapFind_mapSet_ne ⊢
      by_cases hq : p.1 == k2
      · simp [hq]
      · simp [hq, mapFind_mapSet_ne ps k k2 v h]

theorem mapSet_of_find_none : ∀ (m : List (String × SearchResult)) (k : String)
    (v : SearchResult), mapFind m k = none → mapSet m k v = m ++ [(k, v)]
  | [], k, v, _ => rfl
  | p :: ps, k, v, h => by
    have hp : (p.1 == k) = false := by
      by_contra hc
      simp only [Bool.not_eq_false] at hc
      simp [mapFind, List.find?, hc] at h
    have hps : mapFind ps k = none := by
      simpa [mapFind, List.find?, hp] using h
    simp [mapSet, hp, mapSet_of_find_none ps k v hps]

theorem mapFind_append (m1 m2 : List (String × SearchResult)) (k : String) :
    mapFind (m1 ++ m2) k = (mapFind m1 k).or (mapFind m2 k) := by
  unfold mapFind
  rw [List.find?_append]
  cases List.find? (fun p => p.1 == k) m1 <;> simp

theorem mapFind_single_ne (k k2 : String) (v : SearchResult) (h : k2 ≠ k) :
    mapFind [(k, v)] k2 = none := by
  simp [mapFind, List.find?, show (k == k2) = false by simpa using fun e => h e.symm]

theorem foldl_mapSet_insert (g : SearchResult → SearchResult) :
    ∀ (ai : List SearchResult) (acc : List (String × SearchResult)),
      (ai.map (·.id)).Nodup → (∀ a ∈ ai, mapFind acc a.id = none) →
      ai.foldl (fun m r => mapSet m r.id (g r)) acc = acc ++ ai.map (fun r => (r.id, g r))
  | [], acc, _, _ => by simp
  | a :: as, acc, hnd, hnone => by
    simp only [List.map_cons, List.nodup_cons] at hnd
    have hone : mapSet acc a.id (g a) = acc ++ [(a.id, g a)] :=
      mapSet_of_find_none acc a.id (g a) (hnone a (List.mem_cons_self a as))
    have hrest : ∀ x ∈ as, mapFind (acc ++ [(a.id, g a)]) x.id = none := by
      intro x hx
      rw [mapFind_append, hnone x (List.mem_cons_of_mem a hx)]
      have hne : x.id ≠ a.id := by
        intro he
        exact hnd.1 (he ▸ List.mem_map_of_mem (·.id) hx)
      simp [mapFind_single_ne _ _ _ hne]
    simp only [List.foldl_cons, hone,
      foldl_mapSet_insert g as (acc ++ [(a.id, g a)]) hnd.2 hrest]
    simp

theorem mapFind_map_of_mem (g : SearchResult → SearchResult) :
    ∀ (ai : List SearchResult), (ai.map (·.id)).Nodup →
      ∀ a ∈ ai, mapFind (ai.map (fun r => (r.id, g r))) a.id = some (g a)
  | [], _, a, ha => by simp at ha
  | b :: bs, hnd, a, ha => by
    simp only [List.map_cons, List.nodup_cons] at hnd
    rcases List.mem_cons.mp ha with hab | hmem
    · subst hab
      simp [mapFind, List.find?]
    · have hne : (b.id == a.id) = false := by
        by_contra hc
        simp only [Bool.not_eq_false, beq_iff_eq] at hc
        exact hnd.1 (hc ▸ List.mem_map_of_mem (·.id) hmem)
      simp only [List.map_cons, mapFind, List.find?, hne]
      exact mapFind_map_of_mem g bs hnd.2 a hmem

theorem foldl_mergeStep_insert (tw : ℚ) :
    ∀ (lex : List SearchResult) (acc : List (String × SearchResult)),
      (lex.map (·.id)).Nodup → (∀ l ∈ lex, mapFind acc l.id = none) →
      lex.foldl (mergeStep tw) acc
        = acc ++ lex.map (fun l => (l.id, { l with score := l.score * tw }))
  | [], acc, _, _ => by simp
  | l :: ls, acc, hnd, hnone => by
    simp only [List.map_cons, List.nodup_cons] at hnd
    have hstep : mergeStep tw acc l = acc ++ [(l.id, { l with score := l.score * tw })] := by
      unfold mergeStep
      rw [hnone l (List.mem_cons_self l ls)]
      exact mapSet_of_find_none acc l.id _ (hnone l (List.mem_cons_self l ls))
    have hrest : ∀ x ∈ ls, mapFind (acc ++ [(l.id, { l with score := l.score * tw })]) x.id
        = none := by
      intro x hx
      rw [mapFind_append, hnone x (List.mem_cons_of_mem l hx)]
      have hne : x.id ≠ l.id := by
        intro he
        exact hnd.1 (he ▸ List.mem_map_of_mem (·.id) hx)
      simp [mapFind_single_ne _ _ _ hne]
    simp only [List.foldl_cons, hstep,
      foldl_mergeStep_insert tw ls _ hnd.2 hrest]
    simp

theorem find?_id_of_mem :
    ∀ (lex : List SearchResult), (lex.map (·.id)).Nodup →
      ∀ l ∈ lex, ∀ (k : String), l.id = k → lex.find? (fun x => x.id == k) = some l
  | [], _, l, hl, _, _ => by simp at hl
  | b :: bs, hnd, l, hl, k, hk => by
    simp only [List.map_cons, List.nodup_cons] at hnd
    rcases List.mem_cons.mp hl with hab | hmem
    · subst hab
      simp [List.find?, hk]
    · have hne : (b.id == k) = false := by
        by_contra hc
        simp only [Bool.not_eq_false, beq_iff_eq] at hc
        exact hnd.1 ((hc.trans hk.symm) ▸ List.mem_map_of_mem (·.id) hmem)
      simp only [List.find?, hne]
      exact find?_id_of_mem bs hnd.2 l hmem k hk

theorem find?_id_of_not_mem (lex : List SearchResult) (k : String)
    (h : ∀ l ∈ lex, l.id ≠ k) : lex.find? (fun x => x.id == k) = none := by
  rw [List.find?_eq_none]
  intro x hx
  simpa using h x hx

theorem foldl_mergeStep_lookup (tw : ℚ) :
    ∀ (lex : List SearchResult) (m : List (String × SearchResult)) (k : String)
      (v : SearchResult),
      (lex.map (·.id)).Nodup → mapFind m k = some v →
      mapFind (lex.foldl (mergeStep tw) m) k =
        some (match lex.find? (fun l => l.id == k) with
              | some l => { v with score := v.score + l.score * tw }
              | none => v)
  | [], m, k, v, _, hv => by simpa using hv
  | l :: ls, m, k, v, hnd, hv => by
    simp only [List.map_cons, List.nodup_cons] at hnd
    by_cases h : l.id = k
    · have hstep : mergeStep tw m l
          = mapSet m l.id { v with score := v.score + l.score * tw } := by
        unfold mergeStep
        rw [h, hv]
      have hfound : mapFind (mergeStep tw m l) k
          = some { v with score := v.score + l.score * tw } := by
        rw [hstep, h]
        exact mapFind_mapSet_self m k _
      have hnotin : ls.find? (fun x => x.id == k) = none := by
        apply find?_id_of_not_mem
        intro x hx he
        exact hnd.1 ((he.trans h.symm) ▸ List.mem_map_of_mem (·.id) hx)
      rw [List.foldl_cons,
        foldl_mergeStep_lookup tw ls (mergeStep tw m l) k _ hnd.2 hfound, hnotin]
      simp [List.find?, h]
    · have hkeep : mapFind (mergeStep tw m l) k = some v := by
        unfold mergeStep
        cases hfind : mapFind m l.id with
        | some e => rw [mapFind_mapSet_ne m l.id k _ (fun e2 => h e2.symm)]; exact hv
        | none => rw [mapFind_mapSet_ne m l.id k _ (fun e2 => h e2.symm)]; exact hv
      have hne : (l.id == k) = false := by simpa using h
      rw [List.foldl_cons, foldl_mergeStep_lookup tw ls (mergeStep tw m l) k v hnd.2 hkeep]
      simp [List.find?, hne]

theorem fuse_empty (lex : List SearchResult) (hnd : (lex.map (·.id)).Nodup) :
    fuseBySearch [] lex
      = ((lex.map (fun r => { r with score := r.score * (3/10) })).insertionSort rdesc).take 10 := by
  unfold fuseBySearch mergeResults mergeMap searchWeights
  simp only [List.foldl_nil]
  rw [foldl_mergeStep_insert (⟨if 0 < ([] : List SearchResult).length then 7/10 else 0, 3/10⟩
      : MergeWeights).textWeight lex [] hnd (by simp [mapFind])]
  simp only [List.nil_append, List.map_map]
  rfl

theorem fuzzy_sorted (q : String) (notes : List Note) :
    List.Sorted rdesc (fuzzySearch q notes) := by
  unfold fuzzySearch
  exact List.Pairwise.sublist (List.take_sublist 10 _) (List.sorted_insertionSort rdesc _)

theorem fuzzy_len_le (q : String) (notes : List Note) : (fuzzySearch q notes).length ≤ 10 := by
  unfold fuzzySearch
  exact List.length_take_le 10 _

theorem scale_sorted {l : List SearchResult} (hs : List.Sorted rdesc l) :
    List.Sorted rdesc (l.map (fun r => { r with score := r.score * (3/10) })) := by
  apply List.pairwise_map.mpr
  refine hs.imp ?_
  intro a b h
  exact mul_le_mul_of_nonneg_right h (by norm_num)

theorem fuzzy_scaled (q : String) (notes : List Note)
    (hnd : ((fuzzySearch q notes).map (·.id)).Nodup) :
    fuseBySearch [] (fuzzySearch q notes)
      = (fuzzySearch q notes).map (fun r => { r with score := r.score * (3/10) }) := by
  rw [fuse_empty _ hnd, List.Sorted.insertionSort_eq (scale_sorted (fuzzy_sorted q notes)),
    List.take_of_length_le (by simpa using fuzzy_len_le q notes)]

/-- C1 counterexample: with an empty semantic list, the fusion performed by
`search` multiplies the lexical score 50 by the unconditional text weight
0.3, producing 15 — the fused entry's score does not equal its lexical
score. -/
theorem fusion_empty_semantic_counterexample :
    (fuseBySearch [] [SearchResult.mk "a" "t" "c" 50 Source.text]).map (·.score) = [15]
      ∧ (15 : ℚ) ≠ 50 := by
  constructor
  · rw [fuse_empty _ (by simp)]
    simp only [List.map_cons, List.map_nil, List.insertionSort, List.orderedInsert,
      List.take_cons, List.take_nil]
    norm_num
  · norm_num

/-- C1 (amended): for every pair of result lists fused by `search`, if the
semantic list is non-empty then the merged map's entry for an id present in
both lists carries score (semantic score × 0.7) + (lexical score × 0.3); if
the semantic list is empty then the semantic weight is 0 but the lexical
weight stays 0.3, so the fused output is the lexical list with every score
multiplied by 0.3 (rather than equal to its lexical score). -/
theorem mergeResults_fusion_weights (ai lex : List SearchResult)
    (hai : (ai.map (·.id)).Nodup) (hlex : (lex.map (·.id)).Nodup) :
    (∀ a ∈ ai, ∀ l ∈ lex, a.id = l.id →
        mapFind (mergeMap ai lex (searchWeights ai)) a.id
          = some { a with score := a.score * (7/10) + l.score * (3/10)
                          source := Source.hybrid })
    ∧ (ai = [] → fuseBySearch ai lex
          = ((lex.map (fun r => { r with score := r.score * (3/10) })).insertionSort
              rdesc).take 10) := by
  constructor
  · intro a ha l hl hid
    have hlen : 0 < ai.length := List.length_pos.mpr (List.ne_nil_of_mem ha)
    unfold mergeMap searchWeights
    simp only [if_pos hlen]
    rw [foldl_mapSet_insert
      (fun r => { r with score := r.score * (7/10), source := Source.hybrid }) ai []
      hai (by simp [mapFind])]
    simp only [List.nil_append]
    rw [foldl_mergeStep_lookup (3/10) lex _ a.id
      { a with score := a.score * (7/10), source := Source.hybrid } hlex
      (mapFind_map_of_mem _ ai hai a ha)]
    rw [find?_id_of_mem lex hlex l hl a.id hid.symm]
  · intro h
    subst h
    exact fuse_empty lex hlex

/-- Witness for C1: both branches of the amended statement at concrete
inputs. -/
theorem mergeResults_fusion_weights_witness :
    mapFind
        (mergeMap [SearchResult.mk "a" "tA" "cA" 80 Source.semantic]
          [SearchResult.mk "a" "tB" "cB" 50 Source.text]
          (searchWeights [SearchResult.mk "a" "tA" "cA" 80 Source.semantic])) "a"
      = some (SearchResult.mk "a" "tA" "cA" (80 * (7/10) + 50 * (3/10)) Source.hybrid)
    ∧ fuseBySearch [] [SearchResult.mk "b" "t" "c" 50 Source.text]
      = (([SearchResult.mk "b" "t" "c" 50 Source.text].map
          (fun r => { r with score := r.score * (3/10) })).insertionSort rdesc).take 10 :=
  ⟨(mergeResults_fusion_weights [SearchResult.mk "a" "tA" "cA" 80 Source.semantic]
      [SearchResult.mk "a" "tB" "cB" 50 Source.text] (by simp) (by simp)).1
      (SearchResult.mk "a" "tA" "cA" 80 Source.semantic) (by simp)
      (SearchResult.mk "a" "tB" "cB" 50 Source.text) (by simp) rfl,
   (mergeResults_fusion_weights [] [SearchResult.mk "b" "t" "c" 50 Source.text]
      (by simp) (by simp)).2 rfl⟩

/-- C2 counterexample: with the lifecycle forced to `disabled`, `search`
does not return exactly the lexical scorer's results — every score has been
multiplied by the unconditional text weight 0.3 (160 becomes 48). -/
theorem hybridSearch_disabled_counterexample :
    (hybridSearch AIStatus.disabled (Except.ok []) 0 false "plan"
        [Note.mk "1" "plan" "plan stuff"]).1
      ≠ fuzzySearch "plan" [Note.mk "1" "plan" "plan stuff"]
    ∧ (fuzzySearch "plan" [Note.mk "1" "plan" "plan stuff"]).length = 1 := by
  have hfz : fuzzySearch "plan" [Note.mk "1" "plan" "plan stuff"]
      = [SearchResult.mk "1" "plan" "plan stuff" 160 Source.text] := by
    have h0 : jsToLower "plan" = "plan" := rfl
    have h1 : jsToLower "plan stuff" = "plan stuff" := rfl
    have h2 : jsSplit "plan" ' ' = ["plan"] := rfl
    have h3 : jsSplit "plan stuff" ' ' = ["plan", "stuff"] := rfl
    have h4 : includesStr "plan" "plan" = true := rfl
    have h5 : includesStr "stuff" "plan" = false := rfl
    have h6 : ("plan stuff".data.take 200).asString = "plan stuff" := rfl
    simp only [fuzzySearch, h0, h1, h2, h3, h6, List.map_cons, List.map_nil, List.take_cons,
      List.foldl_cons, List.foldl_nil, h4, h5, if_true, if_false, Bool.false_eq_true,
      List.take_nil]
    norm_num [h4, h5, List.filter, List.insertionSort, List.orderedInsert, rdesc]
  constructor
  · have hh : (hybridSearch AIStatus.disabled (Except.ok []) 0 false "plan"
        [Note.mk "1" "plan" "plan stuff"]).1
        = fuseBySearch [] (fuzzySearch "plan" [Note.mk "1" "plan" "plan stuff"]) := by
      simp [hybridSearch]
    rw [hh, hfz, fuse_empty _ (by simp)]
    simp only [List.map_cons, List.map_nil, List.insertionSort, List.orderedInsert,
      List.take_cons, List.take_nil]
    intro hcontra
    have := List.head_eq_of_cons_eq hcontra
    have hsc : (160 : ℚ) * (3/10) = 160 := congrArg SearchResult.score this
    norm_num at hsc
  · rw [hfz]
    rfl

/-- C2 (amended): when the lifecycle state is not `ready` and no unexpected
failure occurs, `search` returns the lexical scorer's results with every
score multiplied by 0.3 (same notes, same order) and performs zero
dispatch-channel calls; and when an unexpected failure is raised inside the
search call, it returns exactly the lexical scorer's result list. -/
theorem hybridSearch_degraded (status : AIStatus) (sem : Except Unit (List SearchResult))
    (semCalls : ℕ) (query : String) (notes : List Note)
    (hnd : ((fuzzySearch query notes).map (·.id)).Nodup) :
    (status ≠ AIStatus.ready →
        hybridSearch status sem semCalls false query notes
          = ((fuzzySearch query notes).map (fun r => { r with score := r.score * (3/10) }), 0))
    ∧ (hybridSearch status sem semCalls true query notes).1 = fuzzySearch query notes := by
  constructor
  · intro hs
    unfold hybridSearch
    simp only [hs, if_false, Bool.false_eq_true]
    exact congrArg (fun l => (l, 0)) (fuzzy_scaled query notes hnd)
  · unfold hybridSearch
    simp

/-- Witness for C2: the degraded-path statement applied with the lifecycle
forced to `disabled` on an empty note collection. -/
theorem hybridSearch_degraded_witness :
    hybridSearch AIStatus.disabled (Except.ok []) 5 false "plan" []
      = ((fuzzySearch "plan" []).map (fun r => { r with score := r.score * (3/10) }), 0)
    ∧ (hybridSearch AIStatus.disabled (Except.ok []) 5 true "plan" []).1
      = fuzzySearch "plan" [] :=
  ⟨(hybridSearch_degraded AIStatus.disabled (Except.ok []) 5 "plan" []
      (by rw [show fuzzySearch "plan" ([] : List Note) = [] from rfl]; simp)).1
      (by simp),
   (hybridSearch_degraded AIStatus.disabled (Except.ok []) 5 "plan" []
      (by rw [show fuzzySearch "plan" ([] : List Note) = [] from rfl]; simp)).2⟩

/-- C3: `initialize()` is idempotent and never throws: a second call while
already initialized is a no-op returning success (the store is untouched);
when the config model is the `fallback` sentinel it transitions the
lifecycle directly to `disabled` and reports success; on any load failure
(timeout, load error, self-test error) it transitions to `error`, sets the
fallback-mode flag, and still reports success; and every call returns
success. -/
theorem initEngine_contract (isInit : Bool) (config : AIConfig) (outcome : LoadOutcome)
    (s : StoreAIState) :
    initEngine true config outcome s = ⟨true, true, s⟩
    ∧ (initEngine isInit config outcome s).ret = true
    ∧ (config.model = "fallback" →
        (initEngine false config outcome s).store.status = AIStatus.disabled
        ∧ (initEngine false config outcome s).ret = true)
    ∧ (config.model ≠ "fallback" → outcome ≠ LoadOutcome.success →
        (initEngine false config outcome s).store.status = AIStatus.error
        ∧ (initEngine false config outcome s).store.fallbackMode = true
        ∧ (initEngine false config outcome s).ret = true) := by
  refine ⟨rfl, ?_, ?_, ?_⟩
  · cases isInit
    · unfold initEngine
      by_cases h : config.model = "fallback"
      · simp [h]
      · simp only [h, Bool.false_eq_true, if_false]
        cases outcome <;> simp
    · rfl
  · intro h
    unfold initEngine
    simp [h, setAIStatus]
  · intro h ho
    unfold initEngine
    simp only [h, Bool.false_eq_true, if_false]
    cases outcome
    · exact absurd rfl ho
    · simp [setAIFallbackMode, setAIStatus]
    · simp [setAIFallbackMode, setAIStatus]
    · simp [setAIFallbackMode, setAIStatus]

/-- Witness for C3: the contract applied at concrete inputs, exercising
both the fallback-sentinel branch and the failure branch. -/
theorem initEngine_contract_witness :
    (initEngine false (AIConfig.mk "fallback" 8 0) LoadOutcome.success
        (StoreAIState.mk AIStatus.loading false (AIConfig.mk "m" 1 1))).store.status
      = AIStatus.disabled
    ∧ (initEngine false (AIConfig.mk "all-MiniLM-L6-v2" 16 1) LoadOutcome.timeout
        (StoreAIState.mk AIStatus.loading false (AIConfig.mk "m" 1 1))).store.status
      = AIStatus.error
    ∧ (initEngine false (AIConfig.mk "all-MiniLM-L6-v2" 16 1) LoadOutcome.timeout
        (StoreAIState.mk AIStatus.loading false (AIConfig.mk "m" 1 1))).store.fallbackMode
      = true :=
  ⟨((initEngine_contract false (AIConfig.mk "fallback" 8 0) LoadOutcome.success
      (StoreAIState.mk AIStatus.loading false (AIConfig.mk "m" 1 1))).2.2.1 rfl).1,
   ((initEngine_contract false (AIConfig.mk "all-MiniLM-L6-v2" 16 1) LoadOutcome.timeout
      (StoreAIState.mk AIStatus.loading false (AIConfig.mk "m" 1 1))).2.2.2
      (by decide) (by decide)).1,
   ((initEngine_contract false (AIConfig.mk "all-MiniLM-L6-v2" 16 1) LoadOutcome.timeout
      (StoreAIState.mk AIStatus.loading false (AIConfig.mk "m" 1 1))).2.2.2
      (by decide) (by decide)).2.1⟩

/-! ### Lemmas about the keyword-hash fallback embedding (C4) -/

theorem getD_set_here (l : List ℕ) (j x : ℕ) (h : j < l.length) : (l.set j x).getD j 0 = x := by
  simp [List.getD_eq_getElem?_getD, List.getElem?_set_self', List.getElem?_eq_getElem, h]

theorem getD_set_other (l : List ℕ) (i j x : ℕ) (h : j ≠ i) :
    (l.set j x).getD i 0 = l.getD i 0 := by
  simp [List.getD_eq_getElem?_getD, List.getElem?_set_ne h]

theorem foldl_incr_length : ∀ (ts : List (List Char)) (v : List ℕ),
    (ts.foldl (fun v w => incrAt v (hashChars w % 384)) v).length = v.length
  | [], v => rfl
  | w :: ts, v => by
    rw [List.foldl_cons, foldl_incr_length ts]
    simp [incrAt]

theorem foldl_incr_getD : ∀ (ts : List (List Char)) (v : List ℕ), v.length = 384 →
    ∀ i : ℕ, i < 384 →
      (ts.foldl (fun v w => incrAt v (hashChars w % 384)) v).getD i 0
        = v.getD i 0 + ts.countP (fun w => hashChars w % 384 == i)
  | [], v, _, i, _ => by simp
  | w :: ts, v, hv, i, hi => by
    have hj : hashChars w % 384 < 384 := Nat.mod_lt _ (by norm_num)
    have hlen : (incrAt v (hashChars w % 384)).length = 384 := by simp [incrAt, hv]
    rw [List.foldl_cons, foldl_incr_getD ts _ hlen i hi, List.countP_cons]
    by_cases hji : hashChars w % 384 = i
    · rw [incrAt, ← hji, getD_set_here v _ _ (by rw [hv]; exact hj)]
      simp only [hji, beq_self_eq_true, if_true]
      omega
    · rw [incrAt, getD_set_other v i _ _ hji]
      have hf : (hashChars w % 384 == i) = false := by simpa using hji
      rw [hf]
      simp

theorem rawKeywordVector_length (t : String) : (rawKeywordVector t).length = 384 := by
  unfold rawKeywordVector
  rw [foldl_incr_length, List.length_replicate]

theorem rawKeywordVector_count (t : String) (i : ℕ) (hi : i < 384) :
    (rawKeywordVector t).getD i 0
      = (keywordTokens t).countP (fun w => hashChars w % 384 == i) := by
  unfold rawKeywordVector
  rw [foldl_incr_getD (keywordTokens t) _ (by rw [List.length_replicate]) i hi,
    List.getD_eq_getElem?_getD, List.getElem?_replicate, if_pos hi]
  simp

theorem sum_sq_div (m : ℝ) (l : List ℕ) :
    ((l.map (fun (v : ℕ) => (v : ℝ) / m)).map (fun x => x * x)).sum
      = ((l.map (fun (v : ℕ) => (v : ℝ) * v)).sum) / (m * m) := by
  induction l with
  | nil => simp
  | cons a l ih =>
    simp only [List.map_cons, List.sum_cons, ih]
    rw [div_mul_div_comm, div_add_div_same]

/-- C4: for every input text, the keyword-hash fallback embedding has
length exactly 384 and L2 norm 1 or 0; the norm is 0 exactly when no token
of length greater than 2 survives the non-word-boundary split; and before
normalisation each qualifying token contributes +1 at index
`hash(token) % 384`. -/
theorem generateKeywordEmbedding_norm (t : String) :
    (generateKeywordEmbedding t).length = 384
    ∧ (l2norm (generateKeywordEmbedding t) = 1 ∨ l2norm (generateKeywordEmbedding t) = 0)
    ∧ (l2norm (generateKeywordEmbedding t) = 0 ↔ keywordTokens t = [])
    ∧ ∀ i : Fin 384, (rawKeywordVector t).getD i 0
        = (keywordTokens t).countP (fun w => hashChars w % 384 == (i : ℕ)) := by
  have hlenraw := rawKeywordVector_length t
  have hunfold : generateKeywordEmbedding t
      = (rawKeywordVector t).map (fun (v : ℕ) =>
          if 0 < Real.sqrt (((rawKeywordVector t).map (fun (v : ℕ) => (v : ℝ) * v)).sum)
          then (v : ℝ) / Real.sqrt (((rawKeywordVector t).map (fun (v : ℕ) => (v : ℝ) * v)).sum)
          else 0) := rfl
  have hlen : (generateKeywordEmbedding t).length = 384 := by
    rw [hunfold, List.length_map, hlenraw]
  cases hcase : keywordTokens t with
  | nil =>
    have hrawzero : rawKeywordVector t = List.replicate 384 0 := by
      unfold rawKeywordVector
      rw [hcase]
      rfl
    have hS : (((rawKeywordVector t).map (fun (v : ℕ) => (v : ℝ) * v)).sum) = 0 := by
      rw [hrawzero, List.map_replicate, List.sum_replicate]
      norm_num
    have hemb : generateKeywordEmbedding t = List.replicate 384 (0 : ℝ) := by
      rw [hunfold]
      simp only [hS, Real.sqrt_zero, lt_irrefl, if_false]
      rw [hrawzero, List.map_replicate]
    have hnorm0 : l2norm (generateKeywordEmbedding t) = 0 := by
      unfold l2norm l2normSq
      rw [hemb, List.map_replicate, List.sum_replicate]
      simp
    refine ⟨hlen, Or.inr hnorm0, by simp [hnorm0], ?_⟩
    intro i
    rw [rawKeywordVector_count t i i.isLt, hcase]
  | cons w ws =>
    have hi0 : hashChars w % 384 < 384 := Nat.mod_lt _ (by norm_num)
    have hc1 : 1 ≤ (rawKeywordVector t).getD (hashChars w % 384) 0 := by
      rw [rawKeywordVector_count t _ hi0, hcase, List.countP_cons]
      simp
    have hclt : hashChars w % 384 < (rawKeywordVector t).length := by
      rw [hlenraw]
      exact hi0
    have hcmemraw : (rawKeywordVector t).getD (hashChars w % 384) 0 ∈ rawKeywordVector t := by
      rw [List.getD_eq_getElem _ _ hclt]
      exact List.getElem_mem hclt
    have hcmem : (((rawKeywordVector t).getD (hashChars w % 384) 0 : ℝ)
          * ((rawKeywordVector t).getD (hashChars w % 384) 0 : ℝ))
        ∈ (rawKeywordVector t).map (fun (v : ℕ) => (v : ℝ) * v) :=
      List.mem_map_of_mem _ hcmemraw
    have hnn : ∀ x ∈ (rawKeywordVector t).map (fun (v : ℕ) => (v : ℝ) * v), (0 : ℝ) ≤ x := by
      intro x hx
      obtain ⟨v, _, rfl⟩ := List.mem_map.mp hx
      positivity
    have hle : (((rawKeywordVector t).getD (hashChars w % 384) 0 : ℝ)
          * ((rawKeywordVector t).getD (hashChars w % 384) 0 : ℝ))
        ≤ (((rawKeywordVector t).map (fun (v : ℕ) => (v : ℝ) * v)).sum) :=
      List.single_le_sum hnn _ hcmem
    have h1c : (1 : ℝ) ≤ ((rawKeywordVector t).getD (hashChars w % 384) 0 : ℝ) := by
      exact_mod_cast hc1
    have hSge1 : (1 : ℝ) ≤ (((rawKeywordVector t).map (fun (v : ℕ) => (v : ℝ) * v)).sum) := by
      nlinarith
    have hSpos : (0 : ℝ) < (((rawKeywordVector t).map (fun (v : ℕ) => (v : ℝ) * v)).sum) := by
      linarith
    have hmpos : 0 < Real.sqrt (((rawKeywordVector t).map (fun (v : ℕ) => (v : ℝ) * v)).sum) :=
      Real.sqrt_pos.mpr hSpos
    have hm2 : Real.sqrt (((rawKeywordVector t).map (fun (v : ℕ) => (v : ℝ) * v)).sum)
          * Real.sqrt (((rawKeywordVector t).map (fun (v : ℕ) => (v : ℝ) * v)).sum)
        = (((rawKeywordVector t).map (fun (v : ℕ) => (v : ℝ) * v)).sum) :=
      Real.mul_self_sqrt (le_of_lt hSpos)
    have hemb : generateKeywordEmbedding t
        = (rawKeywordVector t).map (fun (v : ℕ) =>
            (v : ℝ) / Real.sqrt (((rawKeywordVector t).map (fun (v : ℕ) => (v : ℝ) * v)).sum)) := by
      rw [hunfold]
      simp only [hmpos, if_true]
    have hnormsq : l2normSq (generateKeywordEmbedding t) = 1 := by
      rw [hemb]
      unfold l2normSq
      rw [sum_sq_div, hm2]
      exact div_self (ne_of_gt hSpos)
    have hnorm1 : l2norm (generateKeywordEmbedding t) = 1 := by
      unfold l2norm
      rw [hnormsq, Real.sqrt_one]
    refine ⟨hlen, Or.inl hnorm1, ?_, ?_⟩
    · rw [hnorm1]
      exact iff_of_false one_ne_zero (by simp)
    · intro i
      rw [rawKeywordVector_count t i i.isLt, hcase]

/-! ### Lemmas about cosine similarity (C5) -/

theorem foldl_add_sum_mon {α M : Type} [AddCommMonoid M] (g : α → M) :
    ∀ (l : List α) (s : M), l.foldl (fun acc x => acc + g x) s = s + (l.map g).sum
  | [], s => by simp
  | x :: l, s => by
    rw [List.foldl_cons, foldl_add_sum_mon g l, List.map_cons, List.sum_cons, add_assoc]

theorem zip_take_min : ∀ (a b : List ℝ),
    (a.take (min a.length b.length)).zip (b.take (min a.length b.length)) = a.zip b
  | [], b => by simp
  | x :: a, [] => by simp
  | x :: a, y :: b => by
    simp only [List.length_cons, Nat.succ_min_succ, List.take_succ_cons, List.zip_cons_cons]
    rw [zip_take_min a b]

theorem map_fst_zip_eq_take : ∀ (a b : List ℝ),
    (a.zip b).map Prod.fst = a.take (min a.length b.length)
  | [], b => by simp
  | x :: a, [] => by simp
  | x :: a, y :: b => by
    simp only [List.zip_cons_cons, List.map_cons, List.length_cons, Nat.succ_min_succ,
      List.take_succ_cons]
    rw [map_fst_zip_eq_take a b]

theorem map_snd_zip_eq_take : ∀ (a b : List ℝ),
    (a.zip b).map Prod.snd = b.take (min a.length b.length)
  | [], b => by simp
  | x :: a, [] => by simp
  | x :: a, y :: b => by
    simp only [List.zip_cons_cons, List.map_cons, List.length_cons, Nat.succ_min_succ,
      List.take_succ_cons]
    rw [map_snd_zip_eq_take a b]

theorem zip_fst_sq_sum (a b : List ℝ) :
    (a.zip b).foldl (fun s p => s + p.1 * p.1) 0 = sqSum (a.take (min a.length b.length)) := by
  unfold sqSum
  rw [foldl_add_sum_mon (fun p : ℝ × ℝ => p.1 * p.1),
    foldl_add_sum_mon (fun v : ℝ => v * v)]
  have : (a.zip b).map (fun p : ℝ × ℝ => p.1 * p.1)
      = ((a.zip b).map Prod.fst).map (fun x => x * x) := by
    rw [List.map_map]
    rfl
  rw [this, map_fst_zip_eq_take]

theorem zip_snd_sq_sum (a b : List ℝ) :
    (a.zip b).foldl (fun s p => s + p.2 * p.2) 0 = sqSum (b.take (min a.length b.length)) := by
  unfold sqSum
  rw [foldl_add_sum_mon (fun p : ℝ × ℝ => p.2 * p.2),
    foldl_add_sum_mon (fun v : ℝ => v * v)]
  have : (a.zip b).map (fun p : ℝ × ℝ => p.2 * p.2)
      = ((a.zip b).map Prod.snd).map (fun x => x * x) := by
    rw [List.map_map]
    rfl
  rw [this, map_snd_zip_eq_take]

/-- C5 counterexample: the enhanced engine's cosine similarity does not
return 0 on vectors of unequal length — on `[1, 0]` and `[1]` it compares
the overlapping prefix and returns 1. -/
theorem cosineSimilarity_unequal_length_counterexample :
    ([(1 : ℝ), 0].length ≠ [(1 : ℝ)].length) ∧ cosineSimilarity [(1 : ℝ), 0] [(1 : ℝ)] ≠ 0 := by
  constructor
  · simp
  · unfold cosineSimilarity
    simp only [List.zip_cons_cons, List.zip_nil_right, List.foldl_cons, List.foldl_nil]
    norm_num [Real.sqrt_one]

/-- C5 (amended): the worker engine's `cosineSimilarity` returns 0 when the
two vectors have unequal length; with equal lengths it returns 0 when
either norm is 0 and the dot product over the product of the norms
otherwise.  The enhanced engine's `cosineSimilarity` instead truncates both
vectors to their common prefix and behaves like the worker version on the
truncated vectors (0 only for zero prefix norms, not for unequal lengths). -/
theorem cosineSimilarity_behavior (a b : List ℝ) :
    (a.length ≠ b.length → cosineSimilarityW a b = 0)
    ∧ (a.length = b.length →
        (Real.sqrt (sqSum a) = 0 ∨ Real.sqrt (sqSum b) = 0 → cosineSimilarityW a b = 0)
        ∧ (¬(Real.sqrt (sqSum a) = 0 ∨ Real.sqrt (sqSum b) = 0) →
            cosineSimilarityW a b
              = dotList a b / (Real.sqrt (sqSum a) * Real.sqrt (sqSum b))))
    ∧ cosineSimilarity a b
        = cosineSimilarityW (a.take (min a.length b.length))
            (b.take (min a.length b.length)) := by
  refine ⟨?_, ?_, ?_⟩
  · intro h
    unfold cosineSimilarityW
    rw [if_pos h]
  · intro hlen
    constructor
    · intro hz
      unfold cosineSimilarityW
      rw [if_neg (by simp [hlen])]
      exact if_pos hz
    · intro hz
      unfold cosineSimilarityW
      rw [if_neg (by simp [hlen])]
      exact if_neg hz
  · have hta : (a.take (min a.length b.length)).length = min a.length b.length := by
      rw [List.length_take]
      exact min_eq_left (min_le_left _ _)
    have htb : (b.take (min a.length b.length)).length = min a.length b.length := by
      rw [List.length_take]
      exact min_eq_left (min_le_right _ _)
    have hne : ¬((a.take (min a.length b.length)).length
        ≠ (b.take (min a.length b.length)).length) := by
      rw [hta, htb]
      exact fun h => h rfl
    simp only [cosineSimilarity, cosineSimilarityW]
    rw [if_neg hne, zip_take_min a b, zip_fst_sq_sum a b, zip_snd_sq_sum a b]

/-- Witness for C5: the worker version returns 0 on unequal lengths and the
exact dot-over-norms value on a concrete equal-length pair. -/
theorem cosineSimilarity_behavior_witness :
    cosineSimilarityW [(1 : ℝ), 0] [(1 : ℝ)] = 0
    ∧ cosineSimilarityW [(2 : ℝ)] [(3 : ℝ)]
      = dotList [(2 : ℝ)] [(3 : ℝ)] / (Real.sqrt (sqSum [(2 : ℝ)]) * Real.sqrt (sqSum [(3 : ℝ)])) :=
  ⟨(cosineSimilarity_behavior [(1 : ℝ), 0] [(1 : ℝ)]).1 (by simp),
   ((cosineSimilarity_behavior [(2 : ℝ)] [(3 : ℝ)]).2.1 rfl).2 (by
      intro h
      rcases h with h | h
      · rw [show sqSum [(2 : ℝ)] = 4 by norm_num [sqSum]] at h
        rw [show Real.sqrt 4 = 2 by
          rw [show (4 : ℝ) = 2 ^ 2 by norm_num, Real.sqrt_sq (by norm_num)]] at h
        norm_num at h
      · rw [show sqSum [(3 : ℝ)] = 9 by norm_num [sqSum]] at h
        rw [show Real.sqrt 9 = 3 by
          rw [show (9 : ℝ) = 3 ^ 2 by norm_num, Real.sqrt_sq (by norm_num)]] at h
        norm_num at h)⟩

/-! ### Lemmas about the embedding-cache eviction (C7) -/

theorem countP_add_countP_not {α : Type} (p : α → Bool) :
    ∀ (l : List α), l.countP p + l.countP (fun a => !p a) = l.length
  | [] => rfl
  | x :: l => by
    have hrec := countP_add_countP_not p l
    rw [List.countP_cons, List.countP_cons, List.length_cons]
    by_cases h : p x
    · have hx : p x = true := h
      simp only [hx, Bool.not_true, if_true, Bool.false_eq_true, if_false]
      omega
    · have hx : p x = false := by simpa using h
      simp only [hx, Bool.not_false, if_true, Bool.false_eq_true, if_false]
      omega

theorem cacheSet_length : ∀ (c : Cache) (k : String) (e : CacheEntry),
    (cacheSet c k e).length ≤ c.length + 1
  | [], _, _ => by simp [cacheSet]
  | p :: ps, k, e => by
    by_cases h : p.1 == k
    · simp [cacheSet, h]
    · simp only [cacheSet, h, if_false, Bool.false_eq_true, List.length_cons]
      have := cacheSet_length ps k e
      omega

theorem cacheSet_keys_sub : ∀ (c : Cache) (k : String) (e : CacheEntry) (x : String),
    x ∈ (cacheSet c k e).map (·.1) → x = k ∨ x ∈ c.map (·.1)
  | [], k, e, x, hx => by
    simp [cacheSet] at hx
    exact Or.inl hx
  | p :: ps, k, e, x, hx => by
    by_cases h : p.1 == k
    · simp only [cacheSet, h, if_true, List.map_cons, List.mem_cons] at hx
      rcases hx with hx | hx
      · exact Or.inl hx
      · exact Or.inr (by simp [hx])
    · simp only [cacheSet, h, if_false, Bool.false_eq_true, List.map_cons, List.mem_cons] at hx
      rcases hx with hx | hx
      · exact Or.inr (by simp [hx])
      · rcases cacheSet_keys_sub ps k e x hx with h1 | h1
        · exact Or.inl h1
        · exact Or.inr (by simp [h1])

theorem cacheSet_nodup : ∀ (c : Cache) (k : String) (e : CacheEntry),
    (c.map (·.1)).Nodup → ((cacheSet c k e).map (·.1)).Nodup
  | [], k, e, _ => by simp [cacheSet]
  | p :: ps, k, e, hnd => by
    simp only [List.map_cons, List.nodup_cons] at hnd
    by_cases h : p.1 == k
    · have hk : p.1 = k := by simpa using h
      simp only [cacheSet, h, if_true, List.map_cons, List.nodup_cons]
      exact ⟨hk ▸ hnd.1, hnd.2⟩
    · simp only [cacheSet, h, if_false, Bool.false_eq_true, List.map_cons, List.nodup_cons]
      refine ⟨?_, cacheSet_nodup ps k e hnd.2⟩
      intro hmem
      rcases cacheSet_keys_sub ps k e p.1 hmem with h1 | h1
      · exact absurd h1 (by simpa using h)
      · exact hnd.1 h1

theorem cleanupCache_length (c : Cache) (hnd : (c.map (·.1)).Nodup)
    (h100 : 100 ≤ c.length) : (cleanupCache c).length + 100 = c.length := by
  have hperm : (c.insertionSort hitsLE).Perm c := List.perm_insertionSort hitsLE c
  have hslen : (c.insertionSort hitsLE).length = c.length := hperm.length_eq
  have hsplit : (c.insertionSort hitsLE).take 100 ++ (c.insertionSort hitsLE).drop 100
      = c.insertionSort hitsLE := List.take_append_drop 100 _
  have hDlen : ((c.insertionSort hitsLE).take 100).length = 100 := by
    rw [List.length_take, hslen]
    exact min_eq_left h100
  have hsnd : ((c.insertionSort hitsLE).map (·.1)).Nodup :=
    (hperm.map (·.1)).nodup_iff.mpr hnd
  have hdisj : ∀ x ∈ (c.insertionSort hitsLE).drop 100,
      x.1 ∉ ((c.insertionSort hitsLE).take 100).map (·.1) := by
    intro x hx hmem
    have : ((c.insertionSort hitsLE).take 100).map (·.1)
        ++ ((c.insertionSort hitsLE).drop 100).map (·.1)
        = (c.insertionSort hitsLE).map (·.1) := by
      rw [← List.map_append, hsplit]
    rw [← this] at hsnd
    rcases List.nodup_append.mp hsnd with ⟨_, _, hd⟩
    exact hd hmem (List.mem_map_of_mem (·.1) hx)
  have hcountD : ((c.insertionSort hitsLE).take 100).countP
      (fun p => (((evictedEntries c).map (·.1)).contains p.1)) = 100 := by
    rw [List.countP_eq_length.mpr, hDlen]
    intro a ha
    simp only [evictedEntries]
    exact List.elem_iff.mpr (List.mem_map_of_mem (·.1) ha)
  have hcountR : ((c.insertionSort hitsLE).drop 100).countP
      (fun p => (((evictedEntries c).map (·.1)).contains p.1)) = 0 := by
    rw [List.countP_eq_zero]
    intro a ha hmem
    exact hdisj a ha (by simpa [evictedEntries] using List.elem_iff.mp hmem)
  have hcount : c.countP (fun p => (((evictedEntries c).map (·.1)).contains p.1)) = 100 := by
    rw [← hperm.countP_congr (fun x _ => rfl), ← hsplit, List.countP_append, hcountD, hcountR]
  have hfl : (cleanupCache c).length
      = c.countP (fun p => !(((evictedEntries c).map (·.1)).contains p.1)) := by
    unfold cleanupCache
    rw [← List.countP_eq_length_filter]
  have := countP_add_countP_not
    (fun p : String × CacheEntry => (((evictedEntries c).map (·.1)).contains p.1)) c
  rw [hfl]
  omega

theorem cleanupCache_minhits (c : Cache) :
    ∀ p ∈ cleanupCache c, ∀ q ∈ evictedEntries c, q.2.hits ≤ p.2.hits := by
  intro p hp q hq
  have hperm : (c.insertionSort hitsLE).Perm c := List.perm_insertionSort hitsLE c
  have hsorted : List.Pairwise hitsLE (c.insertionSort hitsLE) :=
    List.sorted_insertionSort hitsLE c
  rcases List.mem_filter.mp hp with ⟨hpc, hpk⟩
  have hpnotin : p.1 ∉ ((c.insertionSort hitsLE).take 100).map (·.1) := by
    intro hmem
    have : (((evictedEntries c).map (·.1)).contains p.1) = true := by
      simpa [evictedEntries] using List.elem_iff.mpr hmem
    rw [this] at hpk
    simp at hpk
  have hps : p ∈ c.insertionSort hitsLE := hperm.mem_iff.mpr hpc
  rw [← List.take_append_drop 100 (c.insertionSort hitsLE)] at hps
  rcases List.mem_append.mp hps with hpd | hpd
  · exact absurd (List.mem_map_of_mem (·.1) hpd) hpnotin
  · rw [← List.take_append_drop 100 (c.insertionSort hitsLE)] at hsorted
    exact (List.pairwise_append.mp hsorted).2.2 q hq p hpd

/-- C7: whenever the cache exceeds 500 entries after a store, eviction runs
and removes exactly the 100 entries with the lowest hit counters at that
point: starting from a cache within capacity, after the store-with-eviction
step the size is at most 500, exactly 100 entries were removed, and every
retained entry's hit counter is at least every evicted entry's hit
counter. -/
theorem cacheEviction_contract (c : Cache) (k : String) (e : CacheEntry)
    (hnd : (c.map (·.1)).Nodup) (hle : c.length ≤ 500) :
    (storeWithEviction c k e).length ≤ 500
    ∧ (500 < (cacheSet c k e).length →
        (storeWithEviction c k e).length + 100 = (cacheSet c k e).length
        ∧ ∀ p ∈ storeWithEviction c k e, ∀ q ∈ evictedEntries (cacheSet c k e),
            q.2.hits ≤ p.2.hits) := by
  have hndset := cacheSet_nodup c k e hnd
  have hlen1 : (cacheSet c k e).length ≤ 501 := le_trans (cacheSet_length c k e) (by omega)
  by_cases hbig : 500 < (cacheSet c k e).length
  · have h100 : 100 ≤ (cacheSet c k e).length := by omega
    have hclean := cleanupCache_length (cacheSet c k e) hndset h100
    simp only [storeWithEviction, if_pos hbig]
    exact ⟨by omega, fun _ => ⟨hclean, cleanupCache_minhits (cacheSet c k e)⟩⟩
  · simp only [storeWithEviction, if_neg hbig]
    exact ⟨by omega, fun h => absurd h hbig⟩

/-- Witness for C7: the store-with-eviction step applied to the empty cache
stays within capacity. -/
theorem cacheEviction_contract_witness :
    (storeWithEviction [] "k" (CacheEntry.mk [] 0 1 false)).length ≤ 500 :=
  (cacheEviction_contract [] "k" (CacheEntry.mk [] 0 1 false) (by simp) (by simp)).1

/-! ### Lemmas about the embedding cache lookup (C8, C10) -/

theorem cacheFind_bumpHits : ∀ (c : Cache) (k : String) (e : CacheEntry),
    cacheFind c k = some e →
    cacheFind (bumpHits c k) k = some { e with hits := e.hits + 1 }
  | [], k, e, he => by simp [cacheFind] at he
  | p :: ps, k, e, he => by
    by_cases h : p.1 == k
    · have hpe : p.2 = e := by
        simpa [cacheFind, List.find?, h] using he
      simp [bumpHits, h, cacheFind, List.find?, hpe]
    · have hps : cacheFind ps k = some e := by
        simpa [cacheFind, List.find?, h] using he
      simp only [bumpHits, h, if_false, Bool.false_eq_true]
      simp only [cacheFind, List.find?, h] at cacheFind_bumpHits ⊢
      exact cacheFind_bumpHits ps k e hps

/-- C8: a cache lookup in `generateEmbedding` is a hit exactly when an
entry keyed by the hash of the text exists and is younger than 24 hours; on
a hit the entry's hit counter is incremented and its stored vector is
returned; an entry aged 24 hours or more is treated as a miss whose
embedding is recomputed by the miss path, and when the engine is not
`ready` the stale entry is left in place (the cache is unchanged) — age
never deletes it. -/
theorem generateEmbedding_cache_semantics (status : AIStatus) (outc : Except Unit (List ℝ))
    (compress : Bool) (now : ℤ) (c : Cache) (text : String) :
    (∀ e, cacheFind c (embCacheKey text) = some e → now - e.timestamp < 86400000 →
        generateEmbedding status outc compress now c text
          = (e.data, bumpHits c (embCacheKey text))
        ∧ cacheFind (bumpHits c (embCacheKey text)) (embCacheKey text)
            = some { e with hits := e.hits + 1 })
    ∧ (∀ e, cacheFind c (embCacheKey text) = some e → 86400000 ≤ now - e.timestamp →
        generateEmbedding status outc compress now c text
          = generateEmbeddingMiss status outc compress now c (embCacheKey text) text
        ∧ (status ≠ AIStatus.ready →
            (generateEmbedding status outc compress now c text).2 = c))
    ∧ (cacheFind c (embCacheKey text) = none →
        generateEmbedding status outc compress now c text
          = generateEmbeddingMiss status outc compress now c (embCacheKey text) text) := by
  refine ⟨?_, ?_, ?_⟩
  · intro e he hfresh
    constructor
    · simp only [generateEmbedding, he, if_pos hfresh]
    · exact cacheFind_bumpHits c _ e he
  · intro e he hstale
    have h1 : generateEmbedding status outc compress now c text
        = generateEmbeddingMiss status outc compress now c (embCacheKey text) text := by
      simp only [generateEmbedding, he]
      rw [if_neg (not_lt.mpr hstale)]
    refine ⟨h1, ?_⟩
    intro hs
    rw [h1]
    unfold generateEmbeddingMiss
    rw [if_neg hs]
  · intro hnone
    simp only [generateEmbedding, hnone]

/-- Witness for C8: a fresh hit on a one-entry cache, and the miss path on
the empty cache. -/
theorem generateEmbedding_cache_semantics_witness :
    generateEmbedding AIStatus.disabled (Except.ok []) false 1
        [(embCacheKey "ab", CacheEntry.mk [] 0 1 false)] "ab"
      = ((CacheEntry.mk ([] : List ℝ) 0 1 false).data,
          bumpHits [(embCacheKey "ab", CacheEntry.mk [] 0 1 false)] (embCacheKey "ab"))
    ∧ generateEmbedding AIStatus.disabled (Except.ok []) false 1 [] "ab"
      = generateEmbeddingMiss AIStatus.disabled (Except.ok []) false 1 [] (embCacheKey "ab") "ab" :=
  ⟨((generateEmbedding_cache_semantics AIStatus.disabled (Except.ok []) false 1
      [(embCacheKey "ab", CacheEntry.mk [] 0 1 false)] "ab").1
      (CacheEntry.mk [] 0 1 false) rfl (by decide)).1,
   (generateEmbedding_cache_semantics AIStatus.disabled (Except.ok []) false 1 [] "ab").2.2 rfl⟩

/-- C10: a call to `generateEmbedding` that takes a fallback branch — no
fresh cache hit, and either the lifecycle is not `ready` or the worker
dispatch fails — returns the keyword-hash fallback vector and leaves the
cache exactly unchanged: nothing is stored, overwritten, or evicted, so a
later identical call recomputes the fallback vector instead of hitting the
cache. -/
theorem generateEmbedding_fallback_frame (status : AIStatus) (outc : Except Unit (List ℝ))
    (compress : Bool) (now : ℤ) (c : Cache) (text : String)
    (hstale : ∀ e, cacheFind c (embCacheKey text) = some e → 86400000 ≤ now - e.timestamp)
    (hfb : status ≠ AIStatus.ready ∨ outc = Except.error ()) :
    generateEmbedding status outc compress now c text = (generateKeywordEmbedding text, c) := by
  have hmiss : generateEmbedding status outc compress now c text
      = generateEmbeddingMiss status outc compress now c (embCacheKey text) text := by
    cases hfind : cacheFind c (embCacheKey text) with
    | none => simp only [generateEmbedding, hfind]
    | some e =>
      simp only [generateEmbedding, hfind]
      rw [if_neg (not_lt.mpr (hstale e hfind))]
  rw [hmiss]
  unfold generateEmbeddingMiss
  rcases hfb with hs | ho
  · rw [if_neg hs]
  · by_cases hs : status = AIStatus.ready
    · rw [if_pos hs, ho]
    · rw [if_neg hs]

/-- Witness for C10: the fallback frame condition on the empty cache with
the lifecycle disabled. -/
theorem generateEmbedding_fallback_frame_witness :
    generateEmbedding AIStatus.disabled (Except.ok []) false 0 [] "ab"
      = (generateKeywordEmbedding "ab", []) :=
  generateEmbedding_fallback_frame AIStatus.disabled (Except.ok []) false 0 [] "ab"
    (fun _ he => Option.noConfusion he) (Or.inl (by decide))

/-! ### Lemmas about the dispatch channel (C9) -/

theorem fold_inactive (reqId : String) : ∀ (msgs : List WorkerMsg) (s : ReqState),
    s.listener = false → msgs.foldl (handleMessage reqId) s = s
  | [], s, _ => rfl
  | m :: ms, s, hs => by
    rw [List.foldl_cons]
    have hstep : handleMessage reqId s m = s := by
      unfold handleMessage
      rw [hs]
      simp
    rw [hstep]
    exact fold_inactive reqId ms s hs

theorem fold_early (reqId : String) : ∀ (msgs : List WorkerMsg),
    msgs.foldl (handleMessage reqId) initReqState
      = match msgs.find? (fun m => m.id == reqId) with
        | some m => ⟨false, some (settledOf m)⟩
        | none => initReqState
  | [] => rfl
  | m :: ms => by
    by_cases h : m.id == reqId
    · have hstep : handleMessage reqId initReqState m = ⟨false, some (settledOf m)⟩ := by
        unfold handleMessage
        rw [h]
        rfl
      rw [List.foldl_cons, hstep, fold_inactive reqId ms _ rfl, List.find?, h]
    · have hf : (m.id == reqId) = false := by simpa using h
      have hstep : handleMessage reqId initReqState m = initReqState := by
        unfold handleMessage
        rw [hf]
        rfl
      rw [List.foldl_cons, hstep, fold_early reqId ms]
      have hfind : (m :: ms).find? (fun m => m.id == reqId) = ms.find? (fun m => m.id == reqId) := by
        rw [List.find?, hf]
      rw [hfind]

/-- C9: for every dispatch-channel request, at most one reply is honored:
replies whose correlation id does not match are ignored (the handler is the
identity on them), the first matching reply before the timeout determines
the settlement — resolving on result, rejecting on error — and if no
matching reply arrives in the 30-second window the request is rejected with
the timeout failure; in every case the listener is removed, so late replies
(after the timer) change nothing. -/
theorem sendToWorker_protocol (reqId : String) (early late : List WorkerMsg) :
    (runRequest reqId early late).listener = false
    ∧ (runRequest reqId early late).outcome = some (honoredReply reqId early)
    ∧ (∀ (s : ReqState) (m : WorkerMsg), m.id ≠ reqId → handleMessage reqId s m = s) := by
  have hmain : runRequest reqId early late
      = fireTimeout (early.foldl (handleMessage reqId) initReqState) := by
    unfold runRequest
    exact fold_inactive reqId late _ rfl
  refine ⟨?_, ?_, ?_⟩
  · rw [hmain]
    rfl
  · rw [hmain, fold_early reqId early]
    unfold honoredReply
    cases hfind : early.find? (fun m => m.id == reqId) with
    | some m => rfl
    | none => rfl
  · intro s m hm
    unfold handleMessage
    have hf : (m.id == reqId) = false := by simpa using hm
    rw [hf]
    simp

/-- Witness for C9: the protocol applied to a request that receives no
reply, plus the handler ignoring a mismatched correlation id. -/
theorem sendToWorker_protocol_witness :
    (runRequest "a" [] []).listener = false
    ∧ (runRequest "a" [] []).outcome = some (honoredReply "a" [])
    ∧ handleMessage "a" initReqState (WorkerMsg.mk "b" none 0) = initReqState :=
  ⟨(sendToWorker_protocol "a" [] []).1, (sendToWorker_protocol "a" [] []).2.1,
   (sendToWorker_protocol "a" [] []).2.2 initReqState (WorkerMsg.mk "b" none 0) (by decide)⟩

/-- C6 counterexample: the claim's "+10 per matching token among the first
100 whitespace-split content tokens" is false of the code, which splits
content on the space character only.  For query "plan" against a note with
content "plan\nplan" (title "x"), the code sees the single space-split
token "plan\nplan" and scores 10, while the whitespace-split reading sees
two matching tokens and scores 20. -/
theorem fuzzySearch_whitespace_counterexample :
    (fuzzySearch "plan" [Note.mk "1" "x" "plan\nplan"]).map (·.score) = [10]
    ∧ (lexicalSpecW "plan" [Note.mk "1" "x" "plan\nplan"]).map (·.score) = [20]
    ∧ fuzzySearch "plan" [Note.mk "1" "x" "plan\nplan"]
        ≠ lexicalSpecW "plan" [Note.mk "1" "x" "plan\nplan"] := by
  have h0 : jsToLower "plan" = "plan" := rfl
  have h1 : jsToLower "x" = "x" := rfl
  have h2 : jsToLower "plan\nplan" = "plan\nplan" := rfl
  have h3 : jsSplit "plan" ' ' = ["plan"] := rfl
  have h4 : jsSplit "x" ' ' = ["x"] := rfl
  have h5 : jsSplit "plan\nplan" ' ' = ["plan\nplan"] := rfl
  have h6 : includesStr "x" "plan" = false := rfl
  have h7 : includesStr "plan\nplan" "plan" = true := rfl
  have h8 : ("plan\nplan".data.take 200).asString = "plan\nplan" := rfl
  have h9 : jsWhitespaceTokens "plan\nplan" = ["plan", "plan"] := rfl
  have hc1 : List.countP (fun tw => includesStr tw "plan") ["x"] = 0 := rfl
  have hc2 : List.countP (fun cw => includesStr cw "plan") (["plan", "plan"].take 100) = 2 := rfl
  have hfz : (fuzzySearch "plan" [Note.mk "1" "x" "plan\nplan"]).map (·.score) = [10] := by
    simp only [fuzzySearch, h0, h1, h2, h3, h4, h5, h8, List.map_cons, List.map_nil,
      List.take_cons, List.foldl_cons, List.foldl_nil, h6, h7, if_true, if_false,
      Bool.false_eq_true, List.take_nil]
    norm_num [h6, h7, List.filter, List.insertionSort, List.orderedInsert, rdesc]
  have hw : (lexicalSpecW "plan" [Note.mk "1" "x" "plan\nplan"]).map (·.score) = [20] := by
    simp only [lexicalSpecW, lexicalScoreSpecW, h0, h1, h2, h3, h4, h8, h9, hc1, hc2,
      List.map_cons, List.map_nil, h6, if_false, Bool.false_eq_true, List.sum_cons,
      List.sum_nil]
    norm_num [List.filter, List.insertionSort, List.orderedInsert, rdesc]
  refine ⟨hfz, hw, ?_⟩
  intro h
  have hbad : ([10] : List ℚ) = [20] := by
    rw [← hfz, ← hw, h]
  norm_num at hbad
